import Mathlib

/-!
Verification of the style-based PDF outline inference engine
(`challenge1a/pdfextract.py`, function `process_pdf_to_outline`).

The engine is shallowly embedded: the raw page/block/line/span input stream is
a Lean data type, Python `Counter` objects are ordered association lists
(insertion order preserved, as in CPython dicts), `Counter.most_common(1)` is
`argmaxFirst` (ties broken by first insertion, as in CPython's
`heapq.nlargest`/`max`), and Python's stable `sorted` is a stable insertion
sort.  Font sizes are rationals (the source works on floats), rounded with
Python's round-half-to-even.  `\d`/`\s` in the source's regexes are modelled
on their ASCII portion.
-/

namespace PdfOutline

/-! ## Ordered counters (Python `collections.Counter` over insertion-ordered dicts) -/

section Counter

variable {α : Type} [DecidableEq α]

/-- `c[k] += w` on an insertion-ordered association list: bump the existing
entry for `k`, or append a fresh one at the end. -/
def updateCount : List (α × Nat) → α → Nat → List (α × Nat)
  | [], k, w => [(k, w)]
  | (k', n) :: rest, k, w =>
    if k' = k then (k', n + w) :: rest else (k', n) :: updateCount rest k w

/-- Build a counter by adding the given (key, weight) pairs in order to `c`. -/
def buildCounterPairs : List (α × Nat) → List (α × Nat) → List (α × Nat)
  | [], c => c
  | (k, w) :: ps, c => buildCounterPairs ps (updateCount c k w)

/-- Value of key `k` in the counter (0 when absent). -/
def countOf : List (α × Nat) → α → Nat
  | [], _ => 0
  | (k', n) :: rest, k => if k' = k then n else countOf rest k

/-- Total weight carried by key `k` in a list of (key, weight) pairs. -/
def weightSum : List (α × Nat) → α → Nat
  | [], _ => 0
  | (k, w) :: ps, t => (if k = t then w else 0) + weightSum ps t

/-- `Counter.most_common(1)[0]`: the first entry whose count is maximal
(later entries replace the current best only when strictly greater). -/
def argmaxFirst : List (α × Nat) → Option (α × Nat)
  | [] => none
  | (k, n) :: rest =>
    match argmaxFirst rest with
    | none => some (k, n)
    | some (k', n') => if n < n' then some (k', n') else some (k, n)

/-- The elements of `l` not in `seen`, in order of first occurrence. -/
def firstSeenNew (seen : List α) : List α → List α
  | [] => []
  | x :: xs => if x ∈ seen then firstSeenNew seen xs else x :: firstSeenNew (x :: seen) xs

/-- The distinct elements of `l` in order of first occurrence. -/
def firstSeenKeys (l : List α) : List α := firstSeenNew [] l

end Counter

/-! ## Stable insertion sort (Python's stable `sorted`) -/

section Sorting

variable {α : Type}

/-- Insert `x` before the first element `y` with `le x y`; with `le` reading
"`x` may come before `y`", an element inserted from the left of the original
list lands before its equals, which is Python's stability convention. -/
def insertAscBy (le : α → α → Bool) (x : α) : List α → List α
  | [] => [x]
  | y :: ys => if le x y then x :: y :: ys else y :: insertAscBy le x ys

/-- Stable sort with respect to `le`. -/
def stableSortBy (le : α → α → Bool) (l : List α) : List α :=
  l.foldr (insertAscBy le) []

/-- Python's `sorted(key=k, reverse=True)`: stable, numerically descending. -/
def sortDescInt (k : α → Int) (l : List α) : List α :=
  stableSortBy (fun a b => decide (k b ≤ k a)) l

end Sorting

/-! ## Character classes and the numbered-heading regexes -/

/-- ASCII part of Python's `\s` (`re` whitespace class). -/
def isPySpace (c : Char) : Bool :=
  c = ' ' || c = '\t' || c = '\n' || c = '\r' || c = '\x0b' || c = '\x0c'

/-- The regex range `A-Z`. -/
def isPyUpper (c : Char) : Bool := 'A' ≤ c && c ≤ 'Z'

/-- `re.match(r'^\d+\.[\sA-Z]', t)`: one or more digits, a period, then a
single character that is whitespace or an uppercase letter. -/
def reMatchTopNumbered (t : String) : Bool :=
  match t.data.takeWhile Char.isDigit, t.data.dropWhile Char.isDigit with
  | _ :: _, c0 :: c :: _ => decide (c0 = '.') && (isPySpace c || isPyUpper c)
  | _, _ => false

/-- `re.match(r'^\d+\.\d+', t)`: one or more digits, a period, then a digit. -/
def reMatchSubNumbered (t : String) : Bool :=
  match t.data.takeWhile Char.isDigit, t.data.dropWhile Char.isDigit with
  | _ :: _, c0 :: c :: _ => decide (c0 = '.') && c.isDigit
  | _, _ => false

/-- The source's numbered-top-level-heading test (line 75). -/
def isNumberedH1Text (t : String) : Bool :=
  reMatchTopNumbered t && !reMatchSubNumbered t

/-- `len(t.split())`: number of maximal runs of non-whitespace characters. -/
def countWordsAux : List Char → Bool → Nat
  | [], _ => 0
  | c :: cs, inWord =>
    if isPySpace c then countWordsAux cs false
    else (if inWord then 0 else 1) + countWordsAux cs true

/-- `len(t.split())` for a Python string `t`. -/
def pyWordCount (t : String) : Nat := countWordsAux t.data false

/-- `t.endswith(('.', ':'))`. -/
def endsWithDotOrColon (t : String) : Bool :=
  match t.data.getLast? with
  | some c => c = '.' || c = ':'
  | none => false

/-! ## Data model -/

/-- Python's `round` on a rational: round half to even (banker's rounding).
With `f = ⌊q⌋` and remainder `rem = num - f * den` (so `q - f = rem / den`),
round down when `rem / den < 1/2`, up when `> 1/2`, and to the even
neighbour at exactly `1/2`. -/
def pyRound (q : Rat) : Int :=
  let f : Int := q.num.fdiv q.den
  let rem : Int := q.num - f * q.den
  if 2 * rem < (q.den : Int) then f
  else if (q.den : Int) < 2 * rem then f + 1
  else if f % 2 = 0 then f else f + 1

/-- The grouping key `(round(size), is_bold, color)` used throughout. -/
structure StyleKey where
  size : Int
  bold : Bool
  color : Int
deriving DecidableEq

/-- One span of the decoder's output: `{text, size, flags, color}`. -/
structure Span where
  text : String
  size : Rat
  flags : Nat
  color : Int
deriving DecidableEq

/-- A line bounding box `(x0, y0, x1, y1)`; only `y0` is ever read. -/
structure Bbox where
  x0 : Rat
  y0 : Rat
  x1 : Rat
  y1 : Rat
deriving DecidableEq

/-- One raw line of the decoder's output: its spans and its bbox. -/
structure RawLine where
  spans : List Span
  bbox : Bbox
deriving DecidableEq

/-- One block of the decoder's output; only blocks with `btype = 0` hold text. -/
structure Block where
  btype : Nat
  lines : List RawLine
deriving DecidableEq

/-- One page of the decoder's output. -/
structure Page where
  blocks : List Block
deriving DecidableEq

/-- The whole decoded document, in page order. -/
abbrev PdfDoc := List Page

/-- The per-line record appended to `lines_data` (source lines 53-56). -/
structure LineData where
  text : String
  style : StyleKey
  font_size : Int
  page : Nat
  bbox : Bbox
deriving DecidableEq

/-- An element of the pre-projection `outline` list (source line 113):
a level paired with all the fields of the line record. -/
structure OutlineEntry where
  level : String
  line : LineData
deriving DecidableEq

/-- The public heading shape `{level, text, page}` (source line 116). -/
structure Heading where
  level : String
  text : String
  page : Nat
deriving DecidableEq

/-- The engine's result `{title, outline}`. -/
structure OutlineResult where
  title : String
  outline : List Heading
deriving DecidableEq

/-! ## The engine (a faithful rendering of `process_pdf_to_outline`) -/

/-- The style triple of one span (source lines 38-42). -/
def spanStyle (s : Span) : StyleKey :=
  ⟨pyRound s.size, s.flags.testBit 1, s.color⟩

/-- The dominant style of a line: the style with the greatest cumulative
character count over the line's spans (source lines 36-48). -/
def dominantStyle (spans : List Span) : Option StyleKey :=
  (argmaxFirst (buildCounterPairs (spans.map fun s => (spanStyle s, s.text.length)) [])).map
    Prod.fst

/-- Python's `str.strip()`: drop leading and trailing whitespace. -/
def pyStrip (t : String) : String :=
  ⟨((t.data.dropWhile Char.isWhitespace).reverse.dropWhile Char.isWhitespace).reverse⟩

/-- `" ".join(s['text'] for s in spans).strip()` (source line 50). -/
def lineText (spans : List Span) : String :=
  pyStrip (String.intercalate " " (spans.map Span.text))

/-- Source lines 28-57: skip span-less lines, compute the dominant style,
skip lines whose joined text strips to empty, and record the rest. -/
def lineToData (pageNum : Nat) (rl : RawLine) : Option LineData :=
  if rl.spans = [] then none
  else
    match dominantStyle rl.spans with
    | none => none
    | some st =>
      let t := lineText rl.spans
      if t = "" then none else some ⟨t, st, st.size, pageNum, rl.bbox⟩

/-- Append the lists `f x` for `x` in the input list, in order. -/
def concatMap {α β : Type} (f : α → List β) : List α → List β
  | [] => []
  | x :: xs => f x ++ concatMap f xs

/-- The line records of one page (blocks of type 0 only). -/
def pageLines (pageNum : Nat) (p : Page) : List LineData :=
  concatMap (fun b => if b.btype = 0 then b.lines.filterMap (lineToData pageNum) else [])
    p.blocks

/-- The line records of the pages numbered `n, n+1, ...`. -/
def linesOfAux : Nat → List Page → List LineData
  | _, [] => []
  | n, p :: ps => pageLines n p ++ linesOfAux (n + 1) ps

/-- `lines_data`: every line record of the document, pages numbered from 1. -/
def linesOf (doc : PdfDoc) : List LineData := linesOfAux 1 doc

/-- The counter over the dominant styles of the given lines, one count per
line (`style_counts` of the source, line 57). -/
def tallyStyles (ls : List LineData) : List (StyleKey × Nat) :=
  buildCounterPairs (ls.map fun l => (l.style, 1)) []

/-- `Counter(...).most_common(1)[0][0] if ... else None` over line styles. -/
def mostCommonStyle (ls : List LineData) : Option StyleKey :=
  (argmaxFirst (tallyStyles ls)).map Prod.fst

/-- `body_style` (source line 64). -/
def bodyStyleOf (doc : PdfDoc) : Option StyleKey := mostCommonStyle (linesOf doc)

/-- The page-1 line records, in reading order (inner list of source line 67). -/
def page1Lines (doc : PdfDoc) : List LineData :=
  (linesOf doc).filter fun l => decide (l.page = 1)

/-- `page1_lines`: page-1 lines stably sorted by font size descending. -/
def page1Sorted (doc : PdfDoc) : List LineData :=
  sortDescInt LineData.font_size (page1Lines doc)

/-- The title (source line 68). -/
def titleOf (doc : PdfDoc) : String :=
  match page1Sorted doc with
  | [] => "Untitled Document"
  | l :: _ => l.text

/-- `all_candidates` (source line 71): style differs from the body style and
text differs from the title. -/
def allCandidatesOf (doc : PdfDoc) : List LineData :=
  (linesOf doc).filter fun l =>
    decide (some l.style ≠ bodyStyleOf doc) && decide (l.text ≠ titleOf doc)

/-- `numbered_h1_candidates` (source lines 74-76). -/
def numberedCandidatesOf (doc : PdfDoc) : List LineData :=
  (allCandidatesOf doc).filter fun l => isNumberedH1Text l.text

/-- `h1_style` (source lines 77-81). -/
def h1StyleOf (doc : PdfDoc) : Option StyleKey :=
  if numberedCandidatesOf doc = [] then mostCommonStyle (allCandidatesOf doc)
  else mostCommonStyle (numberedCandidatesOf doc)

/-- Insert a line under its style key: bump the existing group (preserving
the dict's insertion order) or append a fresh singleton group. -/
def addToGroup (g : List (StyleKey × List LineData)) (k : StyleKey) (x : LineData) :
    List (StyleKey × List LineData) :=
  match g with
  | [] => [(k, [x])]
  | (k', ls) :: rest =>
    if k' = k then (k', ls ++ [x]) :: rest else (k', ls) :: addToGroup rest k x

/-- One iteration of the grouping loop (source lines 89-93): keep the line
only when it has fewer than 40 words and does not end in `.` or `:`. -/
def groupStep (acc : List (StyleKey × List LineData)) (l : LineData) :
    List (StyleKey × List LineData) :=
  if decide (pyWordCount l.text < 40) && !endsWithDotOrColon l.text then
    addToGroup acc l.style l
  else acc

/-- `heading_groups` (source lines 88-93). -/
def headingGroupsOf (doc : PdfDoc) : List (StyleKey × List LineData) :=
  (allCandidatesOf doc).foldl groupStep []

/-- `subheading_styles` (source line 101): the group styles strictly smaller
than the H1 font size, stably sorted by font size descending. -/
def subheadingStylesAt (hg : List (StyleKey × List LineData)) (h1size : Int) :
    List StyleKey :=
  sortDescInt StyleKey.size ((hg.map Prod.fst).filter fun s => decide (s.size < h1size))

/-- `level_map` (source lines 96-105), as a function from style keys: H1 for
any group at or above the H1 font size, H2 and H3 for the two largest
remaining groups, nothing for the rest. -/
def levelMapAt (hg : List (StyleKey × List LineData)) (h1size : Int) (s : StyleKey) :
    Option String :=
  if h1size ≤ s.size then some "H1"
  else if (subheadingStylesAt hg h1size)[0]? = some s then some "H2"
  else if (subheadingStylesAt hg h1size)[1]? = some s then some "H3"
  else none

/-- One iteration of the outline-building loop (source lines 109-113). -/
def preStep (hg : List (StyleKey × List LineData)) (h1size : Int)
    (acc : List OutlineEntry) (p : StyleKey × List LineData) : List OutlineEntry :=
  match levelMapAt hg h1size p.1 with
  | some lv => acc ++ p.2.map fun l => ⟨lv, l⟩
  | none => acc

/-- The unsorted `outline` list (source lines 108-113). -/
def preOutlineAt (hg : List (StyleKey × List LineData)) (h1size : Int) :
    List OutlineEntry :=
  hg.foldl (preStep hg h1size) []

/-- `outline.sort(key=lambda x: (x["page"], x["bbox"][1]))` (source line 115). -/
def outKeyLe (a b : OutlineEntry) : Bool :=
  decide (a.line.page < b.line.page ∨
    (a.line.page = b.line.page ∧ a.line.bbox.y0 ≤ b.line.bbox.y0))

/-- The sorted pre-projection outline of a document, given the H1 font size. -/
def sortedOutlineOf (doc : PdfDoc) (h1size : Int) : List OutlineEntry :=
  stableSortBy outKeyLe (preOutlineAt (headingGroupsOf doc) h1size)

/-- Projection to the public heading shape (source line 116). -/
def projectHeading (e : OutlineEntry) : Heading := ⟨e.level, e.line.text, e.line.page⟩

/-- The whole engine, `process_pdf_to_outline` (source lines 13-118). -/
def process_pdf_to_outline (doc : PdfDoc) : OutlineResult :=
  if linesOf doc = [] then ⟨"Empty Document", []⟩
  else
    match h1StyleOf doc with
    | none => ⟨titleOf doc, []⟩
    | some h1s => ⟨titleOf doc, (sortedOutlineOf doc h1s.size).map projectHeading⟩

/-! ## Concrete documents for witnesses and counterexamples -/

/-- A one-span raw line: `txt` at font size `size`, flag bits `flags`,
color 0, top edge `y`. -/
def mkLine (txt : String) (size : Rat) (flags : Nat) (y : Rat) : RawLine :=
  ⟨[⟨txt, size, flags, 0⟩], ⟨0, y, 100, y + 1⟩⟩

/-- A single-page report: a 24pt title, three numbered 14pt-bold headings,
four unnumbered 12pt-bold side notes (a more frequent candidate style than
the numbered one), and five 10pt body lines. -/
def demoDocMain : PdfDoc :=
  [⟨[⟨0,
      [mkLine "Project Report" 24 0 1,
       mkLine "1. Intro" 14 2 2,
       mkLine "body one" 10 0 3,
       mkLine "Side Note A" 12 2 4,
       mkLine "body two" 10 0 5,
       mkLine "2. Methods" 14 2 6,
       mkLine "Side Note B" 12 2 7,
       mkLine "body three" 10 0 8,
       mkLine "Side Note C" 12 2 9,
       mkLine "3. Results" 14 2 10,
       mkLine "body four" 10 0 11,
       mkLine "Side Note D" 12 2 12,
       mkLine "body five" 10 0 13]⟩]⟩]

/-- A document whose outline carries four distinct styles: the elected H1
style has font size 17 and three larger candidate styles are all promoted
to H1 as well. -/
def demoDoc4 : PdfDoc :=
  [⟨[⟨0,
      [mkLine "T" 30 0 1,
       mkLine "body one" 10 0 2,
       mkLine "Alpha" 17 0 3,
       mkLine "body two" 10 0 4,
       mkLine "Beta" 17 0 5,
       mkLine "Delta" 18 0 6,
       mkLine "body three" 10 0 7,
       mkLine "Gamma" 17 0 8,
       mkLine "Epsilon" 19 0 9,
       mkLine "body four" 10 0 10,
       mkLine "Zeta" 20 0 11,
       mkLine "body five" 10 0 12]⟩]⟩]

/-- A document whose elected H1 style (16pt, the most frequent candidate
style) only occurs on colon-terminated lines, all pruned before grouping:
the outline then has H2 and H3 headings but no H1 heading. -/
def demoDoc10 : PdfDoc :=
  [⟨[⟨0,
      [mkLine "T" 30 0 1,
       mkLine "Alpha:" 16 0 2,
       mkLine "body one" 10 0 3,
       mkLine "One" 14 0 4,
       mkLine "body two" 10 0 5,
       mkLine "Beta:" 16 0 6,
       mkLine "Two" 14 0 7,
       mkLine "body three" 10 0 8,
       mkLine "Gamma:" 16 0 9,
       mkLine "Cee" 12 0 10,
       mkLine "body four" 10 0 11,
       mkLine "body five" 10 0 12]⟩]⟩]

/-- A document with pages but no extractable line: a span-less line, a line
whose text strips to empty, and a non-text block. -/
def demoDocEmpty : PdfDoc :=
  [⟨[⟨0, [⟨[], ⟨0, 1, 100, 2⟩⟩, ⟨[⟨"  ", 12, 0, 0⟩], ⟨0, 2, 100, 3⟩⟩]⟩,
     ⟨1, [mkLine "a caption carried in a non-text block" 12 0 3]⟩]⟩]

/-- A line with 19 plain characters and one bold character (95% / 5%). -/
def demoSpans : List Span :=
  [⟨"nineteen plain char", 12, 0, 0⟩, ⟨"b", 12, 2, 0⟩]

example : isNumberedH1Text "3. Introduction" = true := by decide
example : isNumberedH1Text "3.1 Overview" = false := by decide
example : isNumberedH1Text "3.Intro" = true := by decide
example : pyWordCount "Table 4.2: Revenue by Region." = 5 := by decide
example : endsWithDotOrColon "ends." = true := by decide





/-! ## Counter lemmas -/

section CounterLemmas

variable {α : Type} [DecidableEq α]

lemma keys_updateCount (c : List (α × Nat)) (k : α) (w : Nat) :
    (updateCount c k w).map Prod.fst =
      if k ∈ c.map Prod.fst then c.map Prod.fst else c.map Prod.fst ++ [k] := by
  induction c with
  | nil => simp [updateCount]
  | cons p rest ih =>
    obtain ⟨k', n⟩ := p
    by_cases h : k' = k
    · subst h
      simp [updateCount]
    · by_cases hm : k ∈ rest.map Prod.fst <;>
        simp [updateCount, h, ih, hm, List.mem_cons, Ne.symm h]

lemma countOf_updateCount_self (c : List (α × Nat)) (k : α) (w : Nat) :
    countOf (updateCount c k w) k = countOf c k + w := by
  induction c with
  | nil => simp [updateCount, countOf]
  | cons p rest ih =>
    obtain ⟨k', n⟩ := p
    by_cases h : k' = k
    · subst h
      simp [updateCount, countOf]
    · simp [updateCount, countOf, h, ih]

lemma countOf_updateCount_ne (c : List (α × Nat)) (k j : α) (w : Nat) (hj : j ≠ k) :
    countOf (updateCount c k w) j = countOf c j := by
  induction c with
  | nil => simp [updateCount, countOf, Ne.symm hj]
  | cons p rest ih =>
    obtain ⟨k', n⟩ := p
    by_cases h : k' = k
    · subst h
      simp [updateCount, countOf, Ne.symm hj]
    · simp [updateCount, countOf, h, ih]

lemma countOf_buildCounterPairs (ps : List (α × Nat)) (c : List (α × Nat)) (t : α) :
    countOf (buildCounterPairs ps c) t = countOf c t + weightSum ps t := by
  induction ps generalizing c with
  | nil => simp [buildCounterPairs, weightSum]
  | cons p ps ih =>
    obtain ⟨k, w⟩ := p
    by_cases h : k = t
    · subst h
      rw [buildCounterPairs, ih, countOf_updateCount_self]
      simp [weightSum]
      omega
    · rw [buildCounterPairs, ih, countOf_updateCount_ne _ _ _ _ (Ne.symm h)]
      simp [weightSum, h]

lemma firstSeenNew_congr (s₁ s₂ l : List α) (h : ∀ a, a ∈ s₁ ↔ a ∈ s₂) :
    firstSeenNew s₁ l = firstSeenNew s₂ l := by
  induction l generalizing s₁ s₂ with
  | nil => rfl
  | cons x xs ih =>
    by_cases hx : x ∈ s₁
    · rw [firstSeenNew, if_pos hx, firstSeenNew, if_pos ((h x).mp hx)]
      exact ih s₁ s₂ h
    · rw [firstSeenNew, if_neg hx, firstSeenNew, if_neg (fun hh => hx ((h x).mpr hh))]
      refine congrArg (x :: ·) (ih (x :: s₁) (x :: s₂) fun a => ?_)
      simp [h a]

lemma keys_buildCounterPairs (ps : List (α × Nat)) (c : List (α × Nat)) :
    (buildCounterPairs ps c).map Prod.fst =
      c.map Prod.fst ++ firstSeenNew (c.map Prod.fst) (ps.map Prod.fst) := by
  induction ps generalizing c with
  | nil => simp [buildCounterPairs, firstSeenNew]
  | cons p ps ih =>
    obtain ⟨k, w⟩ := p
    by_cases h : k ∈ c.map Prod.fst
    · rw [buildCounterPairs, ih, keys_updateCount, if_pos h]
      rw [List.map_cons, firstSeenNew, if_pos h]
    · rw [buildCounterPairs, ih, keys_updateCount, if_neg h]
      rw [List.map_cons, firstSeenNew, if_neg h]
      rw [firstSeenNew_congr (c.map Prod.fst ++ [k]) (k :: c.map Prod.fst) _
        (by intro a; simp; tauto)]
      simp

lemma mem_firstSeenNew (seen l : List α) (a : α) :
    a ∈ firstSeenNew seen l ↔ a ∈ l ∧ a ∉ seen := by
  induction l generalizing seen with
  | nil => simp [firstSeenNew]
  | cons x xs ih =>
    by_cases hx : x ∈ seen
    · rw [firstSeenNew, if_pos hx, ih seen]
      constructor
      · exact fun h => ⟨List.mem_cons_of_mem _ h.1, h.2⟩
      · rintro ⟨h1, h2⟩
        rcases List.mem_cons.mp h1 with rfl | h1
        · exact absurd hx h2
        · exact ⟨h1, h2⟩
    · rw [firstSeenNew, if_neg hx]
      simp only [List.mem_cons, ih (x :: seen)]
      by_cases hax : a = x
      · subst hax
        simp [hx]
      · simp [hax]

lemma nodup_firstSeenNew (seen l : List α) : (firstSeenNew seen l).Nodup := by
  induction l generalizing seen with
  | nil => simp [firstSeenNew]
  | cons x xs ih =>
    by_cases hx : x ∈ seen
    · rw [firstSeenNew, if_pos hx]
      exact ih seen
    · rw [firstSeenNew, if_neg hx]
      refine List.nodup_cons.mpr ⟨fun hmem => ?_, ih (x :: seen)⟩
      exact ((mem_firstSeenNew _ _ _).mp hmem).2 (List.mem_cons_self x seen)

lemma countOf_eq_of_mem (c : List (α × Nat)) (k : α) (n : Nat)
    (hnd : (c.map Prod.fst).Nodup) (hmem : (k, n) ∈ c) : countOf c k = n := by
  induction c with
  | nil => simp at hmem
  | cons p rest ih =>
    obtain ⟨k', m⟩ := p
    rcases List.mem_cons.mp hmem with heq | hmem'
    · injection heq with h1 h2
      subst h1; subst h2
      simp [countOf]
    · have hk2 : k ∈ rest.map Prod.fst := List.mem_map.mpr ⟨(k, n), hmem', rfl⟩
      rw [List.map_cons] at hnd
      have hnd' := List.nodup_cons.mp hnd
      have hk : k' ≠ k := fun h => hnd'.1 (h ▸ hk2)
      rw [countOf, if_neg hk]
      exact ih hnd'.2 hmem'

lemma argmaxFirst_spec (c : List (α × Nat)) (h : c ≠ []) :
    ∃ k n c₁ c₂, argmaxFirst c = some (k, n) ∧ c = c₁ ++ (k, n) :: c₂ ∧
      (∀ p ∈ c₁, p.2 < n) ∧ (∀ p ∈ c₂, p.2 ≤ n) := by
  induction c with
  | nil => exact absurd rfl h
  | cons p rest ih =>
    obtain ⟨k, n⟩ := p
    by_cases hrest : rest = []
    · subst hrest
      exact ⟨k, n, [], [], by simp [argmaxFirst], rfl, by simp, by simp⟩
    · obtain ⟨k', n', c₁, c₂, hmax, hdec, hlt, hle⟩ := ih hrest
      by_cases hcmp : n < n'
      · refine ⟨k', n', (k, n) :: c₁, c₂, ?_, by rw [hdec]; simp, ?_, hle⟩
        · simp [argmaxFirst, hmax, hcmp]
        · intro p hp
          rcases List.mem_cons.mp hp with rfl | hp
          · exact hcmp
          · exact hlt p hp
      · refine ⟨k, n, [], rest, ?_, rfl, by simp, ?_⟩
        · simp [argmaxFirst, hmax, hcmp]
        · intro p hp
          rw [hdec] at hp
          rcases List.mem_append.mp hp with hp | hp
          · exact le_of_lt (lt_of_lt_of_le (hlt p hp) (le_of_not_lt hcmp))
          · rcases List.mem_cons.mp hp with rfl | hp
            · exact le_of_not_lt hcmp
            · exact le_trans (hle p hp) (le_of_not_lt hcmp)

lemma counter_keys (ps : List (α × Nat)) :
    (buildCounterPairs ps []).map Prod.fst = firstSeenKeys (ps.map Prod.fst) := by
  simpa [firstSeenKeys] using keys_buildCounterPairs ps []

lemma counter_count (ps : List (α × Nat)) (t : α) :
    countOf (buildCounterPairs ps []) t = weightSum ps t := by
  simpa [countOf] using countOf_buildCounterPairs ps [] t

lemma counter_nodup (ps : List (α × Nat)) :
    ((buildCounterPairs ps []).map Prod.fst).Nodup := by
  rw [counter_keys]
  exact nodup_firstSeenNew _ _

lemma argmax_counter (ps : List (α × Nat)) (hne : ps ≠ []) :
    ∃ k pre post,
      (argmaxFirst (buildCounterPairs ps [])).map Prod.fst = some k ∧
      firstSeenKeys (ps.map Prod.fst) = pre ++ k :: post ∧
      (∀ t ∈ pre, weightSum ps t < weightSum ps k) ∧
      (∀ t ∈ post, weightSum ps t ≤ weightSum ps k) := by
  have hcne : buildCounterPairs ps [] ≠ [] := by
    intro hc
    have hk := counter_keys ps
    rw [hc] at hk
    cases ps with
    | nil => exact hne rfl
    | cons p ps' => simp [firstSeenKeys, firstSeenNew] at hk
  obtain ⟨k, n, c₁, c₂, hmax, hdec, hlt, hle⟩ := argmaxFirst_spec _ hcne
  have hnd := counter_nodup ps
  have hkeys := counter_keys ps
  have hkn : countOf (buildCounterPairs ps []) k = n :=
    countOf_eq_of_mem _ _ _ hnd
      (by rw [hdec]; exact List.mem_append_right _ (List.mem_cons_self _ _))
  refine ⟨k, c₁.map Prod.fst, c₂.map Prod.fst, by simp [hmax], ?_, ?_, ?_⟩
  · rw [← hkeys, hdec]
    simp
  · intro t ht
    obtain ⟨q, hp, heq⟩ := List.mem_map.mp ht
    obtain ⟨t', m⟩ := q
    subst heq
    have hmem : (t', m) ∈ buildCounterPairs ps [] := by
      rw [hdec]; exact List.mem_append_left _ hp
    have hct : countOf (buildCounterPairs ps []) t' = m := countOf_eq_of_mem _ _ _ hnd hmem
    rw [← counter_count, ← counter_count ps k, hct, hkn]
    exact hlt (t', m) hp
  · intro t ht
    obtain ⟨q, hp, heq⟩ := List.mem_map.mp ht
    obtain ⟨t', m⟩ := q
    subst heq
    have hmem : (t', m) ∈ buildCounterPairs ps [] := by
      rw [hdec]; exact List.mem_append_right _ (List.mem_cons_of_mem _ hp)
    have hct : countOf (buildCounterPairs ps []) t' = m := countOf_eq_of_mem _ _ _ hnd hmem
    rw [← counter_count, ← counter_count ps k, hct, hkn]
    exact hle (t', m) hp

end CounterLemmas


/-! ## Sorting lemmas -/

section SortingLemmas

variable {α : Type}

lemma perm_insertAscBy (le : α → α → Bool) (x : α) (l : List α) :
    List.Perm (insertAscBy le x l) (x :: l) := by
  induction l with
  | nil => rfl
  | cons y ys ih =>
    by_cases h : le x y
    · rw [insertAscBy, if_pos h]
    · rw [insertAscBy, if_neg h]
      exact List.Perm.trans (List.Perm.cons y ih) (List.Perm.swap x y ys)

lemma perm_stableSortBy (le : α → α → Bool) (l : List α) :
    List.Perm (stableSortBy le l) l := by
  induction l with
  | nil => rfl
  | cons x xs ih =>
    exact List.Perm.trans (perm_insertAscBy le x (stableSortBy le xs)) (List.Perm.cons x ih)

lemma mem_stableSortBy (le : α → α → Bool) (l : List α) (a : α) :
    a ∈ stableSortBy le l ↔ a ∈ l :=
  (perm_stableSortBy le l).mem_iff

lemma pairwise_insertAscBy (le : α → α → Bool)
    (total : ∀ a b, le a b = true ∨ le b a = true)
    (htrans : ∀ a b c, le a b = true → le b c = true → le a c = true)
    (x : α) (l : List α) (h : l.Pairwise fun a b => le a b = true) :
    (insertAscBy le x l).Pairwise fun a b => le a b = true := by
  induction l with
  | nil => simp [insertAscBy]
  | cons y ys ih =>
    obtain ⟨hy, hys⟩ := List.pairwise_cons.mp h
    by_cases hxy : le x y
    · rw [insertAscBy, if_pos hxy]
      refine List.pairwise_cons.mpr ⟨?_, h⟩
      intro z hz
      rcases List.mem_cons.mp hz with rfl | hz
      · exact hxy
      · exact htrans x y z hxy (hy z hz)
    · rw [insertAscBy, if_neg hxy]
      refine List.pairwise_cons.mpr ⟨?_, ih hys⟩
      intro z hz
      have hz' := (perm_insertAscBy le x ys).mem_iff.mp hz
      rcases List.mem_cons.mp hz' with rfl | hz'
      · rcases total y z with hh | hh
        · exact hh
        · exact absurd hh (by simpa using hxy)
      · exact hy z hz'

lemma pairwise_stableSortBy (le : α → α → Bool)
    (total : ∀ a b, le a b = true ∨ le b a = true)
    (htrans : ∀ a b c, le a b = true → le b c = true → le a c = true)
    (l : List α) :
    (stableSortBy le l).Pairwise fun a b => le a b = true := by
  induction l with
  | nil => simp [stableSortBy]
  | cons x xs ih => exact pairwise_insertAscBy le total htrans x _ ih

lemma head_sortDescInt (k : α → Int) (l : List α) (h : l ≠ []) :
    ∃ x pre post, l = pre ++ x :: post ∧ (sortDescInt k l).head? = some x ∧
      (∀ y ∈ pre, k y < k x) ∧ (∀ y ∈ post, k y ≤ k x) := by
  induction l with
  | nil => exact absurd rfl h
  | cons a rest ih =>
    by_cases hrest : rest = []
    · subst hrest
      exact ⟨a, [], [], rfl, rfl, by simp, by simp⟩
    · obtain ⟨x, pre, post, hdec, hhead, hlt, hle⟩ := ih hrest
      have hsort : sortDescInt k (a :: rest) = insertAscBy (fun a b => decide (k b ≤ k a)) a (sortDescInt k rest) := rfl
      obtain ⟨s, tl, hst⟩ : ∃ s tl, sortDescInt k rest = s :: tl := by
        cases hs : sortDescInt k rest with
        | nil => rw [hs] at hhead; simp at hhead
        | cons s tl => exact ⟨s, tl, rfl⟩
      have hsx : s = x := by
        rw [hst] at hhead
        simpa using hhead
      subst hsx
      by_cases hcmp : k s ≤ k a
      · refine ⟨a, [], rest, rfl, ?_, by simp, ?_⟩
        · rw [hsort, hst, insertAscBy, if_pos (by simpa using hcmp)]
          rfl
        · intro y hy
          rw [hdec] at hy
          rcases List.mem_append.mp hy with hy | hy
          · exact le_trans (le_of_lt (hlt y hy)) hcmp
          · rcases List.mem_cons.mp hy with rfl | hy
            · exact hcmp
            · exact le_trans (hle y hy) hcmp
      · refine ⟨s, a :: pre, post, by rw [hdec]; simp, ?_, ?_, hle⟩
        · rw [hsort, hst, insertAscBy, if_neg (by simpa using hcmp)]
          rfl
        · intro y hy
          rcases List.mem_cons.mp hy with rfl | hy
          · exact lt_of_not_ge hcmp
          · exact hlt y hy

end SortingLemmas


/-! ## Frequency specifications -/

/-- Number of lines in `ls` whose dominant style is `t`. -/
def styleOccCount (ls : List LineData) (t : StyleKey) : Nat :=
  (ls.filter fun l => decide (l.style = t)).length

/-- Cumulative character count of the spans of style `t`. -/
def cumLen (spans : List Span) (t : StyleKey) : Nat :=
  ((spans.filter fun s => decide (spanStyle s = t)).map fun s => s.text.length).sum

/-- `s` is the most frequent dominant style of the lines `ls`, ties broken
by first-seen order: every style first seen before `s` occurs on strictly
fewer lines, every style first seen after occurs on no more lines. -/
def mostFreqStyleSpec (ls : List LineData) (s : StyleKey) : Prop :=
  ∃ pre post,
    firstSeenKeys (ls.map fun l => l.style) = pre ++ s :: post ∧
    (∀ t ∈ pre, styleOccCount ls t < styleOccCount ls s) ∧
    (∀ t ∈ post, styleOccCount ls t ≤ styleOccCount ls s)

lemma weightSum_tally (ls : List LineData) (t : StyleKey) :
    weightSum (ls.map fun l => (l.style, 1)) t = styleOccCount ls t := by
  induction ls with
  | nil => simp [weightSum, styleOccCount]
  | cons l ls ih =>
    by_cases h : l.style = t
    · simp [weightSum, styleOccCount, List.filter_cons, h, ih]
      omega
    · simp [weightSum, styleOccCount, List.filter_cons, h, ih]

lemma weightSum_spans (spans : List Span) (t : StyleKey) :
    weightSum (spans.map fun s => (spanStyle s, s.text.length)) t = cumLen spans t := by
  induction spans with
  | nil => simp [weightSum, cumLen]
  | cons sp ss ih =>
    by_cases h : spanStyle sp = t
    · simp [weightSum, cumLen, List.filter_cons, h, ih]
    · simp [weightSum, cumLen, List.filter_cons, h, ih]

lemma mostCommonStyle_spec (ls : List LineData) (h : ls ≠ []) :
    ∃ s, mostCommonStyle ls = some s ∧ mostFreqStyleSpec ls s := by
  have hne : ls.map (fun l => (l.style, (1 : Nat))) ≠ [] := by simpa using h
  obtain ⟨k, pre, post, hmax, hkeys, hlt, hle⟩ := argmax_counter _ hne
  refine ⟨k, ?_, pre, post, ?_, ?_, ?_⟩
  · simpa [mostCommonStyle, tallyStyles] using hmax
  · simpa [List.map_map, Function.comp] using hkeys
  · intro t ht
    have := hlt t ht
    rwa [weightSum_tally, weightSum_tally] at this
  · intro t ht
    have := hle t ht
    rwa [weightSum_tally, weightSum_tally] at this

lemma dominantStyle_spec (spans : List Span) (h : spans ≠ []) :
    ∃ st pre post, dominantStyle spans = some st ∧
      firstSeenKeys (spans.map spanStyle) = pre ++ st :: post ∧
      (∀ t ∈ pre, cumLen spans t < cumLen spans st) ∧
      (∀ t ∈ post, cumLen spans t ≤ cumLen spans st) := by
  have hne : spans.map (fun s => (spanStyle s, s.text.length)) ≠ [] := by simpa using h
  obtain ⟨k, pre, post, hmax, hkeys, hlt, hle⟩ := argmax_counter _ hne
  refine ⟨k, pre, post, ?_, ?_, ?_, ?_⟩
  · simpa [dominantStyle] using hmax
  · simpa [List.map_map, Function.comp] using hkeys
  · intro t ht
    have := hlt t ht
    rwa [weightSum_spans, weightSum_spans] at this
  · intro t ht
    have := hle t ht
    rwa [weightSum_spans, weightSum_spans] at this


/-! ## Grouping and outline-membership lemmas -/

/-- The word-count / punctuation pruning criterion of source line 90. -/
def lineKept (l : LineData) : Prop :=
  pyWordCount l.text < 40 ∧ endsWithDotOrColon l.text = false

lemma mem_addToGroup (g : List (StyleKey × List LineData)) (k : StyleKey) (x : LineData)
    (s : StyleKey) (ls : List LineData) (h : (s, ls) ∈ addToGroup g k x) :
    (s, ls) ∈ g ∨ (∃ ls₀, (s, ls₀) ∈ g ∧ s = k ∧ ls = ls₀ ++ [x]) ∨ (s = k ∧ ls = [x]) := by
  induction g with
  | nil =>
    simp [addToGroup] at h
    exact Or.inr (Or.inr h)
  | cons p rest ih =>
    obtain ⟨k', ls'⟩ := p
    by_cases hk : k' = k
    · subst hk
      rw [addToGroup, if_pos rfl] at h
      rcases List.mem_cons.mp h with heq | hmem
      · injection heq with h1 h2
        subst h1
        exact Or.inr (Or.inl ⟨ls', List.mem_cons_self _ _, rfl, h2⟩)
      · exact Or.inl (List.mem_cons_of_mem _ hmem)
    · rw [addToGroup, if_neg hk] at h
      rcases List.mem_cons.mp h with heq | hmem
      · exact Or.inl (List.mem_cons.mpr (Or.inl heq))
      · rcases ih hmem with hg | ⟨ls₀, hg, hsk, hls⟩ | hlast
        · exact Or.inl (List.mem_cons_of_mem _ hg)
        · exact Or.inr (Or.inl ⟨ls₀, List.mem_cons_of_mem _ hg, hsk, hls⟩)
        · exact Or.inr (Or.inr hlast)

lemma groupsFold_sound (Q : LineData → Prop) (cands : List LineData)
    (hc : ∀ l ∈ cands, Q l)
    (acc : List (StyleKey × List LineData))
    (hacc : ∀ s ls, (s, ls) ∈ acc → ∀ l ∈ ls, Q l ∧ l.style = s ∧ lineKept l) :
    ∀ s ls, (s, ls) ∈ cands.foldl groupStep acc → ∀ l ∈ ls, Q l ∧ l.style = s ∧ lineKept l := by
  induction cands generalizing acc with
  | nil => exact hacc
  | cons x cs ih =>
    intro s ls h
    rw [List.foldl_cons] at h
    refine ih (fun l hl => hc l (List.mem_cons_of_mem _ hl)) (groupStep acc x) ?_ s ls h
    intro s' ls' h' l hl
    unfold groupStep at h'
    by_cases hcond : (decide (pyWordCount x.text < 40) && !endsWithDotOrColon x.text) = true
    · rw [if_pos hcond] at h'
      have hkx : lineKept x := by
        rcases Bool.and_eq_true_iff.mp hcond with ⟨h1, h2⟩
        exact ⟨of_decide_eq_true h1, by simpa using h2⟩
      rcases mem_addToGroup _ _ _ _ _ h' with hg | ⟨ls₀, hg, hsk, hls⟩ | ⟨hs, hls⟩
      · exact hacc s' ls' hg l hl
      · subst hls
        rcases List.mem_append.mp hl with hl0 | hlx
        · exact hacc s' ls₀ hg l hl0
        · have : l = x := by simpa using hlx
          subst this
          exact ⟨hc l (List.mem_cons_self _ _), hsk ▸ rfl, hkx⟩
      · subst hls
        have : l = x := by simpa using hl
        subst this
        exact ⟨hc l (List.mem_cons_self _ _), hs ▸ rfl, hkx⟩
    · rw [if_neg hcond] at h'
      exact hacc s' ls' h' l hl

lemma headingGroups_sound (doc : PdfDoc) :
    ∀ s ls, (s, ls) ∈ headingGroupsOf doc → ∀ l ∈ ls,
      l ∈ allCandidatesOf doc ∧ l.style = s ∧ lineKept l :=
  groupsFold_sound (· ∈ allCandidatesOf doc) (allCandidatesOf doc) (fun _ h => h) []
    (by intro s ls h; simp at h)

lemma mem_preOutline_fold (hg : List (StyleKey × List LineData)) (h1size : Int)
    (l : List (StyleKey × List LineData)) (acc : List OutlineEntry) (e : OutlineEntry)
    (h : e ∈ l.foldl (preStep hg h1size) acc) :
    e ∈ acc ∨ ∃ s ls, (s, ls) ∈ l ∧ e.line ∈ ls ∧ levelMapAt hg h1size s = some e.level := by
  induction l generalizing acc with
  | nil => exact Or.inl h
  | cons p l' ih =>
    rw [List.foldl_cons] at h
    rcases ih (preStep hg h1size acc p) h with h' | ⟨s, ls, hmem, hline, hlv⟩
    · obtain ⟨k, kls⟩ := p
      cases hlv : levelMapAt hg h1size k with
      | none =>
        rw [preStep, hlv] at h'
        exact Or.inl h'
      | some lv =>
        rw [preStep, hlv] at h'
        rcases List.mem_append.mp h' with ha | hb
        · exact Or.inl ha
        · obtain ⟨l0, hl0, heq⟩ := List.mem_map.mp hb
          subst heq
          exact Or.inr ⟨k, kls, List.mem_cons_self _ _, hl0, hlv⟩
    · exact Or.inr ⟨s, ls, List.mem_cons_of_mem _ hmem, hline, hlv⟩

lemma mem_preOutlineAt (hg : List (StyleKey × List LineData)) (h1size : Int)
    (e : OutlineEntry) (h : e ∈ preOutlineAt hg h1size) :
    ∃ s ls, (s, ls) ∈ hg ∧ e.line ∈ ls ∧ levelMapAt hg h1size s = some e.level := by
  rcases mem_preOutline_fold hg h1size hg [] e h with h' | h'
  · simp at h'
  · exact h'

lemma sortedOutline_sound (doc : PdfDoc) (h1size : Int) (e : OutlineEntry)
    (h : e ∈ sortedOutlineOf doc h1size) :
    e.line.style ∈ (headingGroupsOf doc).map Prod.fst ∧
    levelMapAt (headingGroupsOf doc) h1size e.line.style = some e.level ∧
    e.line ∈ allCandidatesOf doc ∧ lineKept e.line := by
  have h1 : e ∈ preOutlineAt (headingGroupsOf doc) h1size :=
    (mem_stableSortBy _ _ _).mp h
  obtain ⟨s, ls, hmem, hline, hlv⟩ := mem_preOutlineAt _ _ _ h1
  obtain ⟨hcand, hstyle, hkept⟩ := headingGroups_sound doc s ls hmem e.line hline
  subst hstyle
  exact ⟨List.mem_map.mpr ⟨(e.line.style, ls), hmem, rfl⟩, hlv, hcand, hkept⟩

lemma levelMapAt_levels (hg : List (StyleKey × List LineData)) (h1size : Int)
    (s : StyleKey) (lv : String) (h : levelMapAt hg h1size s = some lv) :
    lv = "H1" ∨ lv = "H2" ∨ lv = "H3" := by
  unfold levelMapAt at h
  split_ifs at h
  · exact Or.inl (Option.some.inj h).symm
  · exact Or.inr (Or.inl (Option.some.inj h).symm)
  · exact Or.inr (Or.inr (Option.some.inj h).symm)


/-! ## Decomposition of the numbered-heading patterns -/

lemma digits_prefix_unique (ds : List Char) (c : Char) (rest : List Char)
    (hds : ∀ d ∈ ds, d.isDigit = true) (hc : c.isDigit = false) :
    (ds ++ c :: rest).takeWhile Char.isDigit = ds ∧
    (ds ++ c :: rest).dropWhile Char.isDigit = c :: rest := by
  induction ds with
  | nil => simp [List.takeWhile_cons, List.dropWhile_cons, hc]
  | cons d ds ih =>
    have hd : d.isDigit = true := hds d (List.mem_cons_self _ _)
    obtain ⟨ih1, ih2⟩ := ih fun x hx => hds x (List.mem_cons_of_mem _ hx)
    constructor
    · rw [List.cons_append, List.takeWhile_cons, hd]
      simp [ih1]
    · rw [List.cons_append, List.dropWhile_cons, hd]
      simp [ih2]

/-- The text begins with one or more digits, then a period, then one
character that is whitespace or an uppercase letter. -/
def beginsDigitsDotClass (t : String) : Prop :=
  ∃ ds c rest, t.data = ds ++ '.' :: c :: rest ∧ ds ≠ [] ∧
    (∀ d ∈ ds, d.isDigit = true) ∧ (isPySpace c = true ∨ isPyUpper c = true)

/-- The text begins with one or more digits, then a period, then a digit. -/
def beginsSubNumbered (t : String) : Prop :=
  ∃ ds c rest, t.data = ds ++ '.' :: c :: rest ∧ ds ≠ [] ∧
    (∀ d ∈ ds, d.isDigit = true) ∧ c.isDigit = true

lemma reMatchTopNumbered_iff (t : String) :
    reMatchTopNumbered t = true ↔ beginsDigitsDotClass t := by
  constructor
  · intro h
    unfold reMatchTopNumbered at h
    cases htw : t.data.takeWhile Char.isDigit with
    | nil => rw [htw] at h; simp at h
    | cons d ds =>
      cases hdw : t.data.dropWhile Char.isDigit with
      | nil => rw [htw, hdw] at h; simp at h
      | cons c0 cs =>
        cases cs with
        | nil => rw [htw, hdw] at h; simp at h
        | cons c rest =>
          rw [htw, hdw] at h
          simp only [Bool.and_eq_true, decide_eq_true_eq] at h
          obtain ⟨hc0, hclass⟩ := h
          subst hc0
          refine ⟨d :: ds, c, rest, ?_, List.cons_ne_nil _ _, ?_, ?_⟩
          · rw [← htw, ← hdw, List.takeWhile_append_dropWhile]
          · intro x hx
            exact List.mem_takeWhile_imp (htw ▸ hx)
          · exact Bool.or_eq_true_iff.mp hclass
  · rintro ⟨ds, c, rest, hdec, hne, hds, hclass⟩
    obtain ⟨htw, hdw⟩ :=
      digits_prefix_unique ds '.' (c :: rest) hds (by decide)
    unfold reMatchTopNumbered
    rw [hdec, htw, hdw]
    obtain ⟨d, ds', rfl⟩ : ∃ d ds', ds = d :: ds' := by
      cases ds with
      | nil => exact absurd rfl hne
      | cons d ds' => exact ⟨d, ds', rfl⟩
    rcases hclass with hcl | hcl <;> simp [hcl]

lemma reMatchSubNumbered_iff (t : String) :
    reMatchSubNumbered t = true ↔ beginsSubNumbered t := by
  constructor
  · intro h
    unfold reMatchSubNumbered at h
    cases htw : t.data.takeWhile Char.isDigit with
    | nil => rw [htw] at h; simp at h
    | cons d ds =>
      cases hdw : t.data.dropWhile Char.isDigit with
      | nil => rw [htw, hdw] at h; simp at h
      | cons c0 cs =>
        cases cs with
        | nil => rw [htw, hdw] at h; simp at h
        | cons c rest =>
          rw [htw, hdw] at h
          simp only [Bool.and_eq_true, decide_eq_true_eq] at h
          obtain ⟨hc0, hdig⟩ := h
          subst hc0
          refine ⟨d :: ds, c, rest, ?_, List.cons_ne_nil _ _, ?_, hdig⟩
          · rw [← htw, ← hdw, List.takeWhile_append_dropWhile]
          · intro x hx
            exact List.mem_takeWhile_imp (htw ▸ hx)
  · rintro ⟨ds, c, rest, hdec, hne, hds, hdig⟩
    obtain ⟨htw, hdw⟩ :=
      digits_prefix_unique ds '.' (c :: rest) hds (by decide)
    unfold reMatchSubNumbered
    rw [hdec, htw, hdw]
    obtain ⟨d, ds', rfl⟩ : ∃ d ds', ds = d :: ds' := by
      cases ds with
      | nil => exact absurd rfl hne
      | cons d ds' => exact ⟨d, ds', rfl⟩
    simp [hdig]

/-- The pattern exactly as the specification words it: one or more digits,
a period, a space, and then an uppercase letter -- and not the sub-numbered
shape. -/
def c2ClaimedShape (t : String) : Prop :=
  (∃ ds c rest, t.data = ds ++ '.' :: ' ' :: c :: rest ∧ ds ≠ [] ∧
    (∀ d ∈ ds, d.isDigit = true) ∧ isPyUpper c = true) ∧
  ¬ beginsSubNumbered t


/-! ## The claims -/

/-- C1: for every document with at least one pre-pruning heading candidate,
the elected `h1_style` is the most frequent style (ties first-seen) among
the numbered candidates when any exist, and otherwise the most frequent
style among all pre-pruning candidates. -/
theorem C1_h1_election (doc : PdfDoc) (h : allCandidatesOf doc ≠ []) :
    ∃ h1s, h1StyleOf doc = some h1s ∧
      ((numberedCandidatesOf doc ≠ [] ∧
        mostFreqStyleSpec (numberedCandidatesOf doc) h1s) ∨
       (numberedCandidatesOf doc = [] ∧
        mostFreqStyleSpec (allCandidatesOf doc) h1s)) := by
  by_cases hn : numberedCandidatesOf doc = []
  · obtain ⟨s, hs, hspec⟩ := mostCommonStyle_spec (allCandidatesOf doc) h
    exact ⟨s, by rw [h1StyleOf, if_pos hn]; exact hs, Or.inr ⟨hn, hspec⟩⟩
  · obtain ⟨s, hs, hspec⟩ := mostCommonStyle_spec (numberedCandidatesOf doc) hn
    exact ⟨s, by rw [h1StyleOf, if_neg hn]; exact hs, Or.inl ⟨hn, hspec⟩⟩

/-- C1 witness: on the demo report the numbered 14pt-bold style wins the
election even though the unnumbered 12pt-bold style is more frequent. -/
theorem C1_witness :
    allCandidatesOf demoDocMain ≠ [] ∧
    ∃ h1s, h1StyleOf demoDocMain = some h1s ∧
      ((numberedCandidatesOf demoDocMain ≠ [] ∧
        mostFreqStyleSpec (numberedCandidatesOf demoDocMain) h1s) ∨
       (numberedCandidatesOf demoDocMain = [] ∧
        mostFreqStyleSpec (allCandidatesOf demoDocMain) h1s)) :=
  ⟨by decide, C1_h1_election demoDocMain (by decide)⟩

/-- C2 counterexample: "3.Intro" matches the source's numbered-heading test
(the regex class `[\sA-Z]` accepts the uppercase letter directly after the
period) but not the claimed digits-period-space-uppercase shape. -/
theorem C2_counterexample :
    isNumberedH1Text "3.Intro" = true ∧ ¬ c2ClaimedShape "3.Intro" := by
  refine ⟨by decide, ?_⟩
  rintro ⟨⟨ds, c, rest, hdec, -, -, -⟩, -⟩
  have hsp : ' ' ∈ "3.Intro".data := by
    rw [hdec]
    simp
  revert hsp
  decide

/-- C2 (amended): a line's text counts as a numbered top-level heading iff
it begins with one or more digits, a period, and then a single character
that is whitespace or an uppercase letter, and it does not begin with
digits, period, digit. -/
theorem C2_numbered_pattern (t : String) :
    isNumberedH1Text t = true ↔ (beginsDigitsDotClass t ∧ ¬ beginsSubNumbered t) := by
  rw [isNumberedH1Text, Bool.and_eq_true, reMatchTopNumbered_iff]
  constructor
  · rintro ⟨h1, h2⟩
    refine ⟨h1, fun hsub => ?_⟩
    rw [← reMatchSubNumbered_iff] at hsub
    rw [hsub] at h2
    simp at h2
  · rintro ⟨h1, h2⟩
    refine ⟨h1, ?_⟩
    cases hb : reMatchSubNumbered t
    · rfl
    · exact absurd ((reMatchSubNumbered_iff t).mp hb) h2

/-- C5: the dominant style of a non-empty span list is the style with the
greatest cumulative character count, ties broken by first-seen order; in
particular, when the line's spans carry only two styles and one of them
covers strictly more characters, that style wins. -/
theorem C5_dominant_style (spans : List Span) (h : spans ≠ []) :
    (∃ st pre post, dominantStyle spans = some st ∧
      firstSeenKeys (spans.map spanStyle) = pre ++ st :: post ∧
      (∀ t ∈ pre, cumLen spans t < cumLen spans st) ∧
      (∀ t ∈ post, cumLen spans t ≤ cumLen spans st)) ∧
    (∀ p b, p ≠ b → (∀ s ∈ spans, spanStyle s = p ∨ spanStyle s = b) →
      cumLen spans b < cumLen spans p → dominantStyle spans = some p) := by
  have hmain := dominantStyle_spec spans h
  refine ⟨hmain, ?_⟩
  intro p b hpb hall hlt
  obtain ⟨st, pre, post, hdom, hkeys, hpre, hpost⟩ := hmain
  have hstmem : st ∈ firstSeenKeys (spans.map spanStyle) := by
    rw [hkeys]
    simp
  have hstyles : ∀ t ∈ firstSeenKeys (spans.map spanStyle), t = p ∨ t = b := by
    intro t ht
    have ht' : t ∈ spans.map spanStyle := ((mem_firstSeenNew _ _ _).mp ht).1
    obtain ⟨sp, hsp, rfl⟩ := List.mem_map.mp ht'
    exact hall sp hsp
  rcases hstyles st hstmem with rfl | rfl
  · exact hdom
  · have hppos : 0 < cumLen spans p := lt_of_le_of_lt (Nat.zero_le _) hlt
    have hpmem : p ∈ spans.map spanStyle := by
      by_contra hnp
      have hfil : spans.filter (fun s => decide (spanStyle s = p)) = [] := by
        rw [List.filter_eq_nil_iff]
        intro a ha
        simp only [decide_eq_true_eq]
        intro heq
        exact hnp (List.mem_map.mpr ⟨a, ha, heq⟩)
      have : cumLen spans p = 0 := by
        unfold cumLen
        rw [hfil]
        rfl
      omega
    have hpk : p ∈ firstSeenKeys (spans.map spanStyle) :=
      (mem_firstSeenNew _ _ _).mpr ⟨hpmem, by simp⟩
    rw [hkeys] at hpk
    rcases List.mem_append.mp hpk with hp | hp
    · exact absurd (hpre p hp) (by omega)
    · rcases List.mem_cons.mp hp with heq | hp
      · exact absurd heq hpb
      · exact absurd (hpost p hp) (by omega)

/-- C5 witness: 19 plain characters against one bold character (95% / 5%);
the plain style is elected. -/
theorem C5_witness :
    demoSpans ≠ [] ∧
    ((∃ st pre post, dominantStyle demoSpans = some st ∧
      firstSeenKeys (demoSpans.map spanStyle) = pre ++ st :: post ∧
      (∀ t ∈ pre, cumLen demoSpans t < cumLen demoSpans st) ∧
      (∀ t ∈ post, cumLen demoSpans t ≤ cumLen demoSpans st)) ∧
    (∀ p b, p ≠ b → (∀ s ∈ demoSpans, spanStyle s = p ∨ spanStyle s = b) →
      cumLen demoSpans b < cumLen demoSpans p → dominantStyle demoSpans = some p)) :=
  ⟨by decide, C5_dominant_style demoSpans (by decide)⟩

/-- C7: the title of a non-empty document is the text of the first page-1
line attaining the maximal font size (reading order breaks ties), and it is
the constant fallback when page 1 has no lines. -/
theorem C7_title_selection (doc : PdfDoc) (h : linesOf doc ≠ []) :
    (page1Lines doc = [] → titleOf doc = "Untitled Document") ∧
    (page1Lines doc ≠ [] →
      ∃ l pre post, page1Lines doc = pre ++ l :: post ∧ titleOf doc = l.text ∧
        (∀ x ∈ pre, x.font_size < l.font_size) ∧
        (∀ x ∈ post, x.font_size ≤ l.font_size)) := by
  constructor
  · intro hp
    unfold titleOf page1Sorted
    rw [hp]
    rfl
  · intro hp
    obtain ⟨x, pre, post, hdec, hhead, hlt, hle⟩ :=
      head_sortDescInt LineData.font_size (page1Lines doc) hp
    refine ⟨x, pre, post, hdec, ?_, hlt, hle⟩
    cases hs : page1Sorted doc with
    | nil =>
      rw [page1Sorted] at hs
      rw [hs] at hhead
      simp at hhead
    | cons y tl =>
      have hy : (page1Sorted doc).head? = some y := by
        rw [hs]
        rfl
      rw [page1Sorted] at hy
      rw [hy] at hhead
      have hxy : y = x := Option.some.inj hhead
      unfold titleOf
      rw [hs, hxy]

/-- C7 witness: the demo report's title is its unique 24pt page-1 line. -/
theorem C7_witness :
    linesOf demoDocMain ≠ [] ∧
    ((page1Lines demoDocMain = [] → titleOf demoDocMain = "Untitled Document") ∧
     (page1Lines demoDocMain ≠ [] →
       ∃ l pre post, page1Lines demoDocMain = pre ++ l :: post ∧
         titleOf demoDocMain = l.text ∧
         (∀ x ∈ pre, x.font_size < l.font_size) ∧
         (∀ x ∈ post, x.font_size ≤ l.font_size))) :=
  ⟨by decide, C7_title_selection demoDocMain (by decide)⟩

/-- C8: a document with zero extractable lines yields exactly the
empty-document sentinel. -/
theorem C8_empty_document (doc : PdfDoc) (h : linesOf doc = []) :
    process_pdf_to_outline doc = ⟨"Empty Document", []⟩ := by
  unfold process_pdf_to_outline
  rw [if_pos h]

/-- C8 witness: a document holding only a span-less line, a whitespace-only
line and a non-text block extracts no line and returns the sentinel. -/
theorem C8_witness :
    linesOf demoDocEmpty = [] ∧
    process_pdf_to_outline demoDocEmpty = ⟨"Empty Document", []⟩ :=
  ⟨by decide, C8_empty_document demoDocEmpty (by decide)⟩

/-- C10: a document can have an outline with H2 and H3 headings but no H1
heading: here every line of the elected 16pt H1 style ends with a colon and
is pruned, and every surviving group is strictly smaller than 16pt. -/
theorem C10_h2_without_h1 :
    h1StyleOf demoDoc10 = some ⟨16, false, 0⟩ ∧
    (∀ s ∈ (headingGroupsOf demoDoc10).map Prod.fst, s.size < 16) ∧
    (∀ hd ∈ (process_pdf_to_outline demoDoc10).outline, hd.level ≠ "H1") ∧
    (∃ hd ∈ (process_pdf_to_outline demoDoc10).outline, hd.level = "H2") := by
  decide


/-- C3: with an elected H1 style, every post-pruning group at or above the
H1 font size is assigned H1; the remaining groups are exactly the smaller
group styles in font-size-descending order, the first of which gets H2, the
second H3, and the rest no level; and every outline entry carries exactly
its style's assigned level. -/
theorem C3_level_assignment (doc : PdfDoc) (h1s : StyleKey)
    (hh1 : h1StyleOf doc = some h1s) :
    (∀ s ∈ (headingGroupsOf doc).map Prod.fst, h1s.size ≤ s.size →
      levelMapAt (headingGroupsOf doc) h1s.size s = some "H1") ∧
    (∀ s ∈ (headingGroupsOf doc).map Prod.fst, s.size < h1s.size →
      levelMapAt (headingGroupsOf doc) h1s.size s =
        (if (subheadingStylesAt (headingGroupsOf doc) h1s.size)[0]? = some s then some "H2"
         else if (subheadingStylesAt (headingGroupsOf doc) h1s.size)[1]? = some s then some "H3"
         else none)) ∧
    (subheadingStylesAt (headingGroupsOf doc) h1s.size).Pairwise
      (fun a b => b.size ≤ a.size) ∧
    List.Perm (subheadingStylesAt (headingGroupsOf doc) h1s.size)
      (((headingGroupsOf doc).map Prod.fst).filter fun s => decide (s.size < h1s.size)) ∧
    (∀ e ∈ sortedOutlineOf doc h1s.size,
      levelMapAt (headingGroupsOf doc) h1s.size e.line.style = some e.level) := by
  refine ⟨?_, ?_, ?_, ?_, ?_⟩
  · intro s _ hsz
    unfold levelMapAt
    rw [if_pos hsz]
  · intro s _ hsz
    unfold levelMapAt
    rw [if_neg (not_le.mpr hsz)]
  · unfold subheadingStylesAt sortDescInt
    refine List.Pairwise.imp (fun h => of_decide_eq_true h) ?_
    refine pairwise_stableSortBy _ ?_ ?_ _
    · intro a b
      rcases le_total b.size a.size with h | h
      · exact Or.inl (decide_eq_true h)
      · exact Or.inr (decide_eq_true h)
    · intro a b c hab hbc
      exact decide_eq_true (le_trans (of_decide_eq_true hbc) (of_decide_eq_true hab))
  · unfold subheadingStylesAt sortDescInt
    exact perm_stableSortBy _ _
  · intro e he
    exact (sortedOutline_sound doc h1s.size e he).2.1

/-- C3 witness: the level assignment instantiated on the demo report, whose
elected H1 style is the 14pt-bold one. -/
theorem C3_witness :
    h1StyleOf demoDocMain = some ⟨14, true, 0⟩ ∧
    ((∀ s ∈ (headingGroupsOf demoDocMain).map Prod.fst, (14 : Int) ≤ s.size →
      levelMapAt (headingGroupsOf demoDocMain) 14 s = some "H1") ∧
    (∀ s ∈ (headingGroupsOf demoDocMain).map Prod.fst, s.size < (14 : Int) →
      levelMapAt (headingGroupsOf demoDocMain) 14 s =
        (if (subheadingStylesAt (headingGroupsOf demoDocMain) 14)[0]? = some s then some "H2"
         else if (subheadingStylesAt (headingGroupsOf demoDocMain) 14)[1]? = some s then some "H3"
         else none)) ∧
    (subheadingStylesAt (headingGroupsOf demoDocMain) 14).Pairwise
      (fun a b => b.size ≤ a.size) ∧
    List.Perm (subheadingStylesAt (headingGroupsOf demoDocMain) 14)
      (((headingGroupsOf demoDocMain).map Prod.fst).filter fun s => decide (s.size < (14 : Int))) ∧
    (∀ e ∈ sortedOutlineOf demoDocMain 14,
      levelMapAt (headingGroupsOf demoDocMain) 14 e.line.style = some e.level)) :=
  ⟨by decide, C3_level_assignment demoDocMain ⟨14, true, 0⟩ (by decide)⟩

/-- C4 counterexample: on `demoDoc4` the elected H1 style has font size 17
and the three larger candidate styles are promoted to H1 as well, so the
outline draws on four distinct styles. -/
theorem C4_counterexample :
    h1StyleOf demoDoc4 = some ⟨17, false, 0⟩ ∧
    3 < (((sortedOutlineOf demoDoc4 17).map fun e => e.line.style).dedup).length := by
  decide

/-- C4 (amended): the outline never contains more than the three levels H1,
H2, H3, and at most two distinct subordinate styles (font size strictly
below the H1 size) ever appear in it; any further subordinate style is
absent entirely. -/
theorem C4_level_cap (doc : PdfDoc) (h1s : StyleKey)
    (hh1 : h1StyleOf doc = some h1s) :
    (∀ hd ∈ (process_pdf_to_outline doc).outline,
      hd.level = "H1" ∨ hd.level = "H2" ∨ hd.level = "H3") ∧
    (∃ s2 s3, ∀ e ∈ sortedOutlineOf doc h1s.size,
      e.line.style.size < h1s.size → e.line.style = s2 ∨ e.line.style = s3) := by
  constructor
  · intro hd hmem
    unfold process_pdf_to_outline at hmem
    by_cases hempty : linesOf doc = []
    · rw [if_pos hempty] at hmem
      simp at hmem
    · rw [if_neg hempty, hh1] at hmem
      obtain ⟨e, he, rfl⟩ := List.mem_map.mp hmem
      exact levelMapAt_levels _ _ _ _ (sortedOutline_sound doc h1s.size e he).2.1
  · refine ⟨(subheadingStylesAt (headingGroupsOf doc) h1s.size)[0]?.getD ⟨0, false, 0⟩,
      (subheadingStylesAt (headingGroupsOf doc) h1s.size)[1]?.getD ⟨0, false, 0⟩, ?_⟩
    intro e he hsz
    have hlv := (sortedOutline_sound doc h1s.size e he).2.1
    unfold levelMapAt at hlv
    rw [if_neg (not_le.mpr hsz)] at hlv
    by_cases h0 : (subheadingStylesAt (headingGroupsOf doc) h1s.size)[0]? = some e.line.style
    · left
      rw [h0]
      rfl
    · rw [if_neg h0] at hlv
      by_cases h1 : (subheadingStylesAt (headingGroupsOf doc) h1s.size)[1]? = some e.line.style
      · right
        rw [h1]
        rfl
      · rw [if_neg h1] at hlv
        simp at hlv

/-- C4 witness: the level cap instantiated on the demo report. -/
theorem C4_witness :
    h1StyleOf demoDocMain = some ⟨14, true, 0⟩ ∧
    ((∀ hd ∈ (process_pdf_to_outline demoDocMain).outline,
      hd.level = "H1" ∨ hd.level = "H2" ∨ hd.level = "H3") ∧
    (∃ s2 s3, ∀ e ∈ sortedOutlineOf demoDocMain 14,
      e.line.style.size < (14 : Int) → e.line.style = s2 ∨ e.line.style = s3)) :=
  ⟨by decide, C4_level_cap demoDocMain ⟨14, true, 0⟩ (by decide)⟩

/-- C6: every outline entry comes from a line whose style differs from the
body style, whose text differs from the title, with fewer than 40 words and
no trailing period or colon; and the body style is the style occurring on
the most lines (each line counted once, ties first-seen). -/
theorem C6_output_filter (doc : PdfDoc) (bs h1s : StyleKey)
    (hbs : bodyStyleOf doc = some bs) (hh1 : h1StyleOf doc = some h1s) :
    (∀ e ∈ sortedOutlineOf doc h1s.size,
      e.line.style ≠ bs ∧ e.line.text ≠ titleOf doc ∧
      pyWordCount e.line.text < 40 ∧ endsWithDotOrColon e.line.text = false) ∧
    mostFreqStyleSpec (linesOf doc) bs := by
  constructor
  · intro e he
    obtain ⟨-, -, hcand, hkept⟩ := sortedOutline_sound doc h1s.size e he
    unfold allCandidatesOf at hcand
    rw [List.mem_filter] at hcand
    obtain ⟨-, hpred⟩ := hcand
    rw [Bool.and_eq_true] at hpred
    obtain ⟨h1, h2⟩ := hpred
    have h1' := of_decide_eq_true h1
    have h2' := of_decide_eq_true h2
    refine ⟨?_, h2', hkept.1, hkept.2⟩
    intro hcontra
    exact h1' (by rw [hcontra, hbs])
  · have hne : linesOf doc ≠ [] := by
      intro h0
      rw [bodyStyleOf, h0] at hbs
      simp [mostCommonStyle, tallyStyles, buildCounterPairs, argmaxFirst] at hbs
    obtain ⟨bs', hbs', hspec⟩ := mostCommonStyle_spec (linesOf doc) hne
    rw [bodyStyleOf, hbs'] at hbs
    exact Option.some.inj hbs ▸ hspec

/-- C6 witness: the filter invariant instantiated on the demo report, whose
body style is the 10pt plain one. -/
theorem C6_witness :
    (bodyStyleOf demoDocMain = some ⟨10, false, 0⟩ ∧
     h1StyleOf demoDocMain = some ⟨14, true, 0⟩) ∧
    ((∀ e ∈ sortedOutlineOf demoDocMain 14,
      e.line.style ≠ ⟨10, false, 0⟩ ∧ e.line.text ≠ titleOf demoDocMain ∧
      pyWordCount e.line.text < 40 ∧ endsWithDotOrColon e.line.text = false) ∧
    mostFreqStyleSpec (linesOf demoDocMain) ⟨10, false, 0⟩) :=
  ⟨⟨by decide, by decide⟩,
    C6_output_filter demoDocMain ⟨10, false, 0⟩ ⟨14, true, 0⟩ (by decide) (by decide)⟩

/-- C9: the outline is ordered by page and, within a page, by the line's
top-edge coordinate: any entry precedes only entries on later pages or at
an equal-or-lower position on the same page. -/
theorem C9_output_ordering (doc : PdfDoc) (h1s : StyleKey)
    (hh1 : h1StyleOf doc = some h1s) :
    (sortedOutlineOf doc h1s.size).Pairwise fun a b =>
      a.line.page < b.line.page ∨
      (a.line.page = b.line.page ∧ a.line.bbox.y0 ≤ b.line.bbox.y0) := by
  have htotal : ∀ a b : OutlineEntry, outKeyLe a b = true ∨ outKeyLe b a = true := by
    intro a b
    unfold outKeyLe
    rcases lt_trichotomy a.line.page b.line.page with hlt | heq | hgt
    · exact Or.inl (decide_eq_true (Or.inl hlt))
    · rcases le_total a.line.bbox.y0 b.line.bbox.y0 with hy | hy
      · exact Or.inl (decide_eq_true (Or.inr ⟨heq, hy⟩))
      · exact Or.inr (decide_eq_true (Or.inr ⟨heq.symm, hy⟩))
    · exact Or.inr (decide_eq_true (Or.inl hgt))
  have htrans : ∀ a b c : OutlineEntry,
      outKeyLe a b = true → outKeyLe b c = true → outKeyLe a c = true := by
    intro a b c hab hbc
    unfold outKeyLe at hab hbc ⊢
    have hab' := of_decide_eq_true hab
    have hbc' := of_decide_eq_true hbc
    apply decide_eq_true
    rcases hab' with h1 | ⟨h1, h1y⟩
    · rcases hbc' with h2 | ⟨h2, h2y⟩
      · exact Or.inl (by omega)
      · exact Or.inl (by omega)
    · rcases hbc' with h2 | ⟨h2, h2y⟩
      · exact Or.inl (by omega)
      · exact Or.inr ⟨h1.trans h2, le_trans h1y h2y⟩
  unfold sortedOutlineOf
  refine List.Pairwise.imp (fun h => of_decide_eq_true h) ?_
  exact pairwise_stableSortBy outKeyLe htotal htrans _

/-- C9 witness: the ordering instantiated on the demo report. -/
theorem C9_witness :
    h1StyleOf demoDocMain = some ⟨14, true, 0⟩ ∧
    (sortedOutlineOf demoDocMain 14).Pairwise (fun a b =>
      a.line.page < b.line.page ∨
      (a.line.page = b.line.page ∧ a.line.bbox.y0 ≤ b.line.bbox.y0)) :=
  ⟨by decide, C9_output_ordering demoDocMain ⟨14, true, 0⟩ (by decide)⟩

end PdfOutline
